import Mathlib

/-!
Verification development for the forest-fire cellular automaton in `src/main.rs`.

The Rust program is shallowly embedded: machine integers (`usize`, `u64`) become
`Nat` (with explicit `2 ^ 64` masks where the 64-bit word structure matters),
`Vec<u64>` becomes `List Nat`, and the pieces of state mutated by the main loop
are passed explicitly.  Randomness (`rand::gen_range`) is modelled by passing the
drawn values as inputs, so every theorem quantifies over all possible draws.
Rendering, textures and UI are external collaborators and are not modelled; only
the simulation state (`CellField`, the fire list, the debouncer and the Poisson
accumulators) is.
-/

namespace ForestFire

/-- One poll of the four-state debouncer (`DebounceToggle::get`, source lines
12–24).  The first component is the updated `state` (`usize`, held in field `1`
of the Rust struct), obtained from the `match` on `(*state, f())`; the returned
`Bool` is `*state == 2` evaluated on the updated state.  The polled input signal
`f()` is passed as the argument `input`. -/
def DebounceToggle.get (state : Nat) (input : Bool) : Nat × Bool :=
  let s2 : Nat :=
    match state, input with
    | 0, true => 1
    | 1, false => 2
    | 2, true => 3
    | 3, false => 0
    | _, _ => state
  (s2, s2 == 2)

/-- Repeated polling of the debouncer on a list of input samples, collecting the
list of results.  `DebounceToggle::new` starts the state at `0`. -/
def DebounceToggle.run (state : Nat) : List Bool → List Bool
  | [] => []
  | i :: rest =>
    let p := DebounceToggle.get state i
    p.2 :: DebounceToggle.run p.1 rest

/-- One call of `PoissonProcess::draw` (source lines 33–42).  The accumulator
`acc` is the struct's single `f32` field; `avgper` is the rate argument.  The
uniform sample `ur = rand::gen_range(f32::EPSILON, 1.)` enters the computation
only through its logarithm `ur.ln()`, so the model takes that logarithm as the
input `lnur` (an arbitrary value of the random source; `ur ∈ [ε, 1)` makes it a
finite negative number in the real program).  `f32` arithmetic is modelled by
exact rationals; `faf as usize` saturates negative values to `0`, which is
`Int.toNat`.  Returns the drawn count together with the new accumulator. -/
def PoissonProcess.draw (avgper lnur acc : ℚ) : Nat × ℚ :=
  let er := -avgper * lnur
  let newacc := acc + er
  let faf : ℤ := ⌊newacc⌋
  (faf.toNat, newacc - (faf : ℚ))

/-- The accumulator after a sequence of draws, each given by a pair
`(avgper, lnur)`. -/
def PoissonProcess.runAcc (acc : ℚ) : List (ℚ × ℚ) → ℚ
  | [] => acc
  | rl :: rest => PoissonProcess.runAcc (PoissonProcess.draw rl.1 rl.2 acc).2 rest

/-- Accumulator states reachable from `PoissonProcess::new()` (accumulator `0`)
by some sequence of draws with arbitrary rates and random values. -/
def PoissonProcess.Reachable (acc : ℚ) : Prop :=
  ∃ l : List (ℚ × ℚ), PoissonProcess.runAcc 0 l = acc

/-- The bit-packed occupancy grid (`struct CellField`, source lines 47–50):
a vector of 64-bit blocks plus the row stride in blocks. -/
structure CellField where
  arr : List Nat
  ystride : Nat
deriving DecidableEq, Repr

/-- `CellField::new` (source lines 53–60): `ceil(w/8) * ceil(h/8)` zeroed
blocks, stride `ceil(w/8)`. -/
def CellField.new (w h : Nat) : CellField :=
  let nx := (w + 7) / 8
  let ny := (h + 7) / 8
  { arr := List.replicate (nx * ny) 0, ystride := nx }

/-- `CellField::indices` (source lines 61–66): block offset
`(y/8) * ystride + x/8` and bit position `(y%8)*8 + x%8` of a coordinate. -/
def CellField.indices (cf : CellField) (x y : Nat) : Nat × Nat :=
  (y / 8 * cf.ystride + x / 8, y % 8 * 8 + x % 8)

/-- `CellField::get` (source lines 67–70): `(arr[off] & (1 << s)) != 0`.  Here
`arr[off]` is modelled totally as `getD off 0`; the `Vec` indexing panic when
`off` is out of range is modelled separately by `CellField.get?`.  Inside the
simulation step all accesses have in-range offsets, where the two agree. -/
def CellField.get (cf : CellField) (x y : Nat) : Bool :=
  (cf.arr.getD (cf.indices x y).1 0 &&& 1 <<< (cf.indices x y).2) != 0

/-- `CellField::set` (source lines 71–74): `arr[off] |= 1 << s`.  `List.set` is
a no-op when `off` is out of range; the panic in that case is modelled by
`CellField.set?`. -/
def CellField.set (cf : CellField) (x y : Nat) : CellField :=
  { cf with
    arr := cf.arr.set (cf.indices x y).1
      (cf.arr.getD (cf.indices x y).1 0 ||| 1 <<< (cf.indices x y).2) }

/-- `CellField::clr` (source lines 75–78): `arr[off] &= !(1 << s)`.  The 64-bit
complement `!(1 << s)` is `(2^64 - 1) ^^^ (1 << s)` (the bit position `s` is
always `< 64`).  Out-of-range panic modelled by `CellField.clr?`. -/
def CellField.clr (cf : CellField) (x y : Nat) : CellField :=
  { cf with
    arr := cf.arr.set (cf.indices x y).1
      (cf.arr.getD (cf.indices x y).1 0 &&& ((2 ^ 64 - 1) ^^^ 1 <<< (cf.indices x y).2)) }

/-- Panic-aware `CellField::get`: Rust `Vec` indexing panics when the block
offset is out of range, which the model renders as `none`. -/
def CellField.get? (cf : CellField) (x y : Nat) : Option Bool :=
  if (cf.indices x y).1 < cf.arr.length then some (cf.get x y) else none

/-- Panic-aware `CellField::set`; `none` exactly when `arr[off]` would panic. -/
def CellField.set? (cf : CellField) (x y : Nat) : Option CellField :=
  if (cf.indices x y).1 < cf.arr.length then some (cf.set x y) else none

/-- Panic-aware `CellField::clr`; `none` exactly when `arr[off]` would panic. -/
def CellField.clr? (cf : CellField) (x y : Nat) : Option CellField :=
  if (cf.indices x y).1 < cf.arr.length then some (cf.clr x y) else none

/-- Well-formedness of a grid for dimensions `w × h`: the shape produced by
`CellField::new(w, h)` (the program constructs the grid once with the screen
dimensions and never resizes it). -/
def CellField.WF (cf : CellField) (w h : Nat) : Prop :=
  cf.ystride = (w + 7) / 8 ∧ cf.arr.length = (w + 7) / 8 * ((h + 7) / 8)

instance (cf : CellField) (w h : Nat) : Decidable (cf.WF w h) := by
  unfold CellField.WF; infer_instance

/-- A burning cell (`struct Fire(usize, usize, usize)`): coordinates and age. -/
structure Fire where
  x : Nat
  y : Nat
  age : Nat
deriving DecidableEq, Repr

/-- The neighbor offset table `ngh` (source lines 120–129). -/
def ngh : List (Int × Int) :=
  [(-1, 0), (1, 0), (0, -1), (0, 1), (-1, -1), (-1, 1), (1, -1), (1, 1)]

/-- The first `numngh` offsets scanned by the loop `for j in 0..numngh`, where
`numngh = if eightconn { 8 } else { 4 }` (source line 178). -/
def nghOf (eightconn : Bool) : List (Int × Int) :=
  if eightconn then ngh else ngh.take 4

/-- The body of the neighbor loop (source lines 189–200) for one burning cell
`f` and one offset `d`: if the neighbor is inside the `w × h` grid and
occupied, push it at age `0` and clear its occupancy.  The state `st` is the
pair (current `cellfield`, current `newfires`). -/
def ignOne (w h : Nat) (f : Fire) (st : CellField × List Fire) (d : Int × Int) :
    CellField × List Fire :=
  let nx : Int := (f.x : Int) + d.1
  let ny : Int := (f.y : Int) + d.2
  if 0 ≤ nx ∧ nx < (w : Int) ∧ 0 ≤ ny ∧ ny < (h : Int) then
    if st.1.get nx.toNat ny.toNat then
      (st.1.clr nx.toNat ny.toNat, st.2 ++ [⟨nx.toNat, ny.toNat, 0⟩])
    else st
  else st

/-- The body of `for Fire(x, y, age) in &fires` (source lines 183–201): carry
the cell forward at `age + 1` when `age < firemaxage` (the extinguished branch
only repaints a pixel, which is outside the model), then scan its neighbors.
`firemaxage` here is the `usize` value `firemaxage.floor() as usize` computed by
the source from the `f32` slider value. -/
def fireStepOne (w h firemaxage : Nat) (nghL : List (Int × Int))
    (st : CellField × List Fire) (f : Fire) : CellField × List Fire :=
  let st1 := if f.age < firemaxage then (st.1, st.2 ++ [⟨f.x, f.y, f.age + 1⟩]) else st
  nghL.foldl (ignOne w h f) st1

/-- The aging/contagion pass over the whole fire list, starting from an empty
`newfires` vector (source lines 180–201). -/
def propagate (w h firemaxage : Nat) (nghL : List (Int × Int)) (cf : CellField)
    (fires : List Fire) : CellField × List Fire :=
  fires.foldl (fireStepOne w h firemaxage nghL) (cf, [])

/-- One iteration of the main loop restricted to simulation state (source lines
180–250): the contagion/aging pass, then spontaneous fires (the random
coordinates drawn inside `for _ in 0..fireproc.draw(...)` are the list `spont`),
then manual mouse/touch ignitions (`manual`), then regrowth (`treeproc` draws,
list `regrow`; `cellfield.set` is called unconditionally).  Pixel writes are
external.  The `if false` locality sort (source lines 241–248) is dead code and
has no effect.  Returns the new grid and `newfires` (which the source assigns to
`fires`). -/
def step (w h : Nat) (eightconn : Bool) (firemaxage : Nat) (cf : CellField)
    (fires : List Fire) (spont manual regrow : List (Nat × Nat)) :
    CellField × List Fire :=
  let pr := propagate w h firemaxage (nghOf eightconn) cf fires
  (regrow.foldl (fun g p => g.set p.1 p.2) pr.1,
   pr.2 ++ spont.map (fun p => ⟨p.1, p.2, 0⟩) ++ manual.map (fun p => ⟨p.1, p.2, 0⟩))

/-- The coordinates of a fire list, in order. -/
def fcoords (l : List Fire) : List (Nat × Nat) :=
  l.map fun f => (f.x, f.y)

/-- Offset `d` from burning cell `f` lands, in bounds, on coordinate `(x, y)`:
exactly the guard of the neighbor loop together with the landing position. -/
def hits (w h : Nat) (f : Fire) (d : Int × Int) (x y : Nat) : Prop :=
  0 ≤ (f.x : Int) + d.1 ∧ (f.x : Int) + d.1 < (w : Int) ∧
    0 ≤ (f.y : Int) + d.2 ∧ (f.y : Int) + d.2 < (h : Int) ∧
    ((f.x : Int) + d.1).toNat = x ∧ ((f.y : Int) + d.2).toNat = y

instance (w h : Nat) (f : Fire) (d : Int × Int) (x y : Nat) :
    Decidable (hits w h f d x y) := by
  unfold hits; infer_instance

/-- The 5 × 5 grid with every cell occupied, for the single-ignition scenario. -/
def fullGrid5 : CellField :=
  (List.range 5).foldl
    (fun g y => (List.range 5).foldl (fun g x => g.set x y) g)
    (CellField.new 5 5)

/-- The single-ignition run: a 5 × 5 fully occupied grid, 4-connected
neighbors, `firemaxage = 1`, both Poisson rates zero (so no spontaneous fires
and no regrowth).  Step `0` applies the manual ignition of `(2, 2)`; every
later step has no external input. -/
def c1Run : Nat → CellField × List Fire
  | 0 => step 5 5 false 1 fullGrid5 [] [] [(2, 2)] []
  | n + 1 => step 5 5 false 1 (c1Run n).1 (c1Run n).2 [] [] []

/-- Invariant of the contagion fold (source lines 183–201), relating the fold
state `st` to the grid `g0` at the start of the pass and the burning cells
`rest` not yet processed: the grid only loses occupancy during the pass, the
accumulated `newfires` have pairwise distinct coordinates, none of which is
occupied, and none of which coincides with an unprocessed burning cell. -/
structure StInv (g0 : CellField) (rest : List Fire) (st : CellField × List Fire) : Prop where
  mono : ∀ x y, st.1.get x y = true → g0.get x y = true
  nodup : (fcoords st.2).Nodup
  accFalse : ∀ g ∈ st.2, st.1.get g.x g.y = false
  disj : ∀ g ∈ st.2, ∀ r ∈ rest, (g.x, g.y) ≠ (r.x, r.y)

/-! Auxiliary lemmas about list updates and single bits. -/

theorem getD_set (l : List Nat) (i j a : Nat) :
    (l.set i a).getD j 0 = if i = j ∧ i < l.length then a else l.getD j 0 := by
  simp only [List.getD_eq_getElem?_getD, List.getElem?_set]
  by_cases h1 : i = j
  · subst h1
    by_cases h2 : i < l.length
    · simp [h2]
    · simp only [h2, if_false, if_true, and_false, and_true, if_neg h2]
      rw [List.getElem?_eq_none (by omega)]
  · simp [h1]

theorem indices_snd_lt (cf : CellField) (x y : Nat) : (cf.indices x y).2 < 64 := by
  unfold CellField.indices
  have hx := Nat.mod_lt x (y := 8) (by norm_num)
  have hy := Nat.mod_lt y (y := 8) (by norm_num)
  omega

theorem get_testBit (cf : CellField) (x y : Nat) :
    cf.get x y = (cf.arr.getD (cf.indices x y).1 0).testBit (cf.indices x y).2 := by
  unfold CellField.get
  rw [Nat.one_shiftLeft, Nat.and_two_pow]
  cases h : (cf.arr.getD (cf.indices x y).1 0).testBit (cf.indices x y).2 <;>
    simp [h, (Nat.two_pow_pos ((cf.indices x y).2)).ne']

theorem arr_set (cf : CellField) (x y : Nat) :
    (cf.set x y).arr =
      cf.arr.set (cf.indices x y).1
        (cf.arr.getD (cf.indices x y).1 0 ||| 1 <<< (cf.indices x y).2) := rfl

theorem arr_clr (cf : CellField) (x y : Nat) :
    (cf.clr x y).arr =
      cf.arr.set (cf.indices x y).1
        (cf.arr.getD (cf.indices x y).1 0 &&& ((2 ^ 64 - 1) ^^^ 1 <<< (cf.indices x y).2)) := rfl

theorem indices_set (cf : CellField) (a b x y : Nat) :
    (cf.set a b).indices x y = cf.indices x y := rfl

theorem indices_clr (cf : CellField) (a b x y : Nat) :
    (cf.clr a b).indices x y = cf.indices x y := rfl

theorem length_arr_set (cf : CellField) (a b : Nat) :
    (cf.set a b).arr.length = cf.arr.length := by
  rw [arr_set, List.length_set]

theorem length_arr_clr (cf : CellField) (a b : Nat) :
    (cf.clr a b).arr.length = cf.arr.length := by
  rw [arr_clr, List.length_set]

theorem WF_set (cf : CellField) (w h a b : Nat) (hwf : cf.WF w h) : (cf.set a b).WF w h :=
  ⟨hwf.1, by rw [length_arr_set]; exact hwf.2⟩

theorem WF_clr (cf : CellField) (w h a b : Nat) (hwf : cf.WF w h) : (cf.clr a b).WF w h :=
  ⟨hwf.1, by rw [length_arr_clr]; exact hwf.2⟩

/-- Clearing never turns a bit on: any coordinate that reads occupied after
`clr` already read occupied before. -/
theorem get_clr_imp (cf : CellField) (a b x y : Nat)
    (h : (cf.clr a b).get x y = true) : cf.get x y = true := by
  rw [get_testBit] at h ⊢
  rw [indices_clr, arr_clr, getD_set] at h
  by_cases hc : (cf.indices a b).1 = (cf.indices x y).1 ∧ (cf.indices a b).1 < cf.arr.length
  · rw [if_pos hc] at h
    rw [Nat.testBit_land] at h
    rw [← hc.1]
    exact (Bool.and_eq_true_iff.mp h).1
  · rwa [if_neg hc] at h

theorem get_clr_false (cf : CellField) (a b x y : Nat)
    (h : cf.get x y = false) : (cf.clr a b).get x y = false := by
  cases hc : (cf.clr a b).get x y
  · rfl
  · rw [get_clr_imp cf a b x y hc] at h; cases h

/-- Clearing a coordinate makes it read unoccupied. -/
theorem get_clr_self (cf : CellField) (a b : Nat) : (cf.clr a b).get a b = false := by
  rw [get_testBit, indices_clr, arr_clr, getD_set]
  by_cases hc : (cf.indices a b).1 = (cf.indices a b).1 ∧ (cf.indices a b).1 < cf.arr.length
  · rw [if_pos hc, Nat.testBit_land, Nat.one_shiftLeft, Nat.testBit_xor,
      Nat.testBit_two_pow_sub_one, Nat.testBit_two_pow_self]
    simp [indices_snd_lt cf a b]
  · rw [if_neg hc]
    have : ¬ (cf.indices a b).1 < cf.arr.length := by tauto
    rw [List.getD_eq_getElem?_getD, List.getElem?_eq_none (by omega)]
    simp

/-- Setting a coordinate with an in-range block offset makes it read occupied. -/
theorem get_set_self_of_lt (cf : CellField) (a b : Nat)
    (hlt : (cf.indices a b).1 < cf.arr.length) : (cf.set a b).get a b = true := by
  rw [get_testBit, indices_set, arr_set, getD_set, if_pos ⟨rfl, hlt⟩,
    Nat.one_shiftLeft, Nat.testBit_lor, Nat.testBit_two_pow_self, Bool.or_true]

/-- Setting one coordinate does not change any coordinate with a different
(block, bit) pair. -/
theorem get_set_of_indices_ne (cf : CellField) (a b x y : Nat)
    (hne : cf.indices x y ≠ cf.indices a b) :
    (cf.set a b).get x y = cf.get x y := by
  rw [get_testBit, get_testBit, indices_set, arr_set, getD_set]
  by_cases hc : (cf.indices a b).1 = (cf.indices x y).1 ∧ (cf.indices a b).1 < cf.arr.length
  · rw [if_pos hc, Nat.one_shiftLeft, Nat.testBit_lor, ← hc.1]
    have hs : (cf.indices a b).2 ≠ (cf.indices x y).2 := by
      intro hs
      exact hne (Prod.ext hc.1.symm hs.symm)
    rw [Nat.testBit_two_pow_of_ne hs, Bool.or_false, hc.1]
  · rw [if_neg hc]

/-- Clearing one coordinate does not change any coordinate with a different
(block, bit) pair. -/
theorem get_clr_of_indices_ne (cf : CellField) (a b x y : Nat)
    (hne : cf.indices x y ≠ cf.indices a b) :
    (cf.clr a b).get x y = cf.get x y := by
  rw [get_testBit, get_testBit, indices_clr, arr_clr, getD_set]
  by_cases hc : (cf.indices a b).1 = (cf.indices x y).1 ∧ (cf.indices a b).1 < cf.arr.length
  · rw [if_pos hc, Nat.one_shiftLeft, Nat.testBit_land, ← hc.1, Nat.testBit_xor,
      Nat.testBit_two_pow_sub_one]
    have hs : (cf.indices a b).2 ≠ (cf.indices x y).2 := by
      intro hs
      exact hne (Prod.ext hc.1.symm hs.symm)
    rw [Nat.testBit_two_pow_of_ne hs]
    simp [indices_snd_lt cf x y, hc.1]
  · rw [if_neg hc]

/-- For a well-formed `w × h` grid, the block offset of an in-bounds coordinate
is inside the block vector. -/
theorem indices_fst_lt (cf : CellField) (w h x y : Nat) (hwf : cf.WF w h)
    (hx : x < w) (hy : y < h) : (cf.indices x y).1 < cf.arr.length := by
  obtain ⟨hs, hl⟩ := hwf
  unfold CellField.indices
  rw [hs, hl]
  have hx8 : x / 8 < (w + 7) / 8 := by omega
  have hy8 : y / 8 < (h + 7) / 8 := by omega
  calc y / 8 * ((w + 7) / 8) + x / 8
      < y / 8 * ((w + 7) / 8) + (w + 7) / 8 := by omega
    _ = (y / 8 + 1) * ((w + 7) / 8) := by ring
    _ ≤ (h + 7) / 8 * ((w + 7) / 8) := Nat.mul_le_mul_right _ hy8
    _ = (w + 7) / 8 * ((h + 7) / 8) := Nat.mul_comm _ _

/-- Injectivity of the coordinate-to-(block, bit) packing on in-bounds
coordinates. -/
theorem indices_inj (cf : CellField) (w h x y x2 y2 : Nat) (hwf : cf.WF w h)
    (hx : x < w) (hy : y < h) (hx2 : x2 < w) (hy2 : y2 < h)
    (he : cf.indices x y = cf.indices x2 y2) : x = x2 ∧ y = y2 := by
  obtain ⟨hs, _⟩ := hwf
  unfold CellField.indices at he
  rw [hs] at he
  obtain ⟨h1, h2⟩ := Prod.mk.injEq .. ▸ he
  have hn : 0 < (w + 7) / 8 := by omega
  have hx8 : x / 8 < (w + 7) / 8 := by omega
  have hx28 : x2 / 8 < (w + 7) / 8 := by omega
  have h1b : x / 8 + y / 8 * ((w + 7) / 8) = x2 / 8 + y2 / 8 * ((w + 7) / 8) := by
    rw [Nat.add_comm (x / 8), Nat.add_comm (x2 / 8)]
    exact h1
  have hdiv : y / 8 = y2 / 8 := by
    have e1 := congrArg (fun t => t / ((w + 7) / 8)) h1b
    simp only at e1
    rwa [Nat.add_mul_div_right _ _ hn, Nat.add_mul_div_right _ _ hn,
      Nat.div_eq_of_lt hx8, Nat.div_eq_of_lt hx28, Nat.zero_add, Nat.zero_add] at e1
  have hmod : x / 8 = x2 / 8 := by
    have e1 := congrArg (fun t => t % ((w + 7) / 8)) h1b
    simp only at e1
    rwa [Nat.add_mul_mod_self_right, Nat.add_mul_mod_self_right,
      Nat.mod_eq_of_lt hx8, Nat.mod_eq_of_lt hx28] at e1
  omega

theorem cellField_eq (c1 c2 : CellField) (ha : c1.arr = c2.arr)
    (hs : c1.ystride = c2.ystride) : c1 = c2 := by
  cases c1; cases c2; cases ha; cases hs; rfl

/-- Writing the same bit twice is the same as writing it once. -/
theorem set_idem (cf : CellField) (x y : Nat) : (cf.set x y).set x y = cf.set x y := by
  refine cellField_eq _ _ ?_ rfl
  rw [arr_set (cf.set x y), indices_set, arr_set cf, getD_set]
  by_cases hb : (cf.indices x y).1 < cf.arr.length
  · rw [if_pos ⟨rfl, hb⟩, List.set_set, Nat.or_assoc, Nat.or_self]
  · rw [if_neg (by tauto)]
    rw [List.set_eq_of_length_le (by rw [List.length_set]; omega)]

/-- Clearing the same bit twice is the same as clearing it once. -/
theorem clr_idem (cf : CellField) (x y : Nat) : (cf.clr x y).clr x y = cf.clr x y := by
  refine cellField_eq _ _ ?_ rfl
  rw [arr_clr (cf.clr x y), indices_clr, arr_clr cf, getD_set]
  by_cases hb : (cf.indices x y).1 < cf.arr.length
  · rw [if_pos ⟨rfl, hb⟩, List.set_set, Nat.and_assoc, Nat.and_self]
  · rw [if_neg (by tauto)]
    rw [List.set_eq_of_length_le (by rw [List.length_set]; omega)]

/-! Claim C5: the debouncer's transition table and its pulse sequence. -/

/-- C5: starting from state `S0 = 0`, one poll applies exactly the transition
table `(0, true) ↦ 1`, `(1, false) ↦ 2`, `(2, true) ↦ 3`, `(3, false) ↦ 0`,
every other `(state, input)` pair being a self-loop, and returns `true` iff the
resulting state is `2`; feeding the input sequence
`[false, true, false, true, false]` yields the poll results
`[false, false, true, false, false]`. -/
theorem debounce_table :
    (∀ s i, (DebounceToggle.get s i).2 = ((DebounceToggle.get s i).1 == 2)) ∧
    DebounceToggle.get 0 true = (1, false) ∧
    DebounceToggle.get 1 false = (2, true) ∧
    DebounceToggle.get 2 true = (3, false) ∧
    DebounceToggle.get 3 false = (0, false) ∧
    (∀ s i, ¬(s = 0 ∧ i = true) → ¬(s = 1 ∧ i = false) → ¬(s = 2 ∧ i = true) →
      ¬(s = 3 ∧ i = false) → DebounceToggle.get s i = (s, s == 2)) ∧
    DebounceToggle.run 0 [false, true, false, true, false] =
      [false, false, true, false, false] := by
  refine ⟨fun s i => rfl, by decide, by decide, by decide, by decide, ?_, by decide⟩
  intro s i h0 h1 h2 h3
  match s, i with
  | 0, true => exact absurd ⟨rfl, rfl⟩ h0
  | 0, false => rfl
  | 1, true => rfl
  | 1, false => exact absurd ⟨rfl, rfl⟩ h1
  | 2, true => exact absurd ⟨rfl, rfl⟩ h2
  | 2, false => rfl
  | 3, true => rfl
  | 3, false => exact absurd ⟨rfl, rfl⟩ h3
  | (n + 4), true => rfl
  | (n + 4), false => rfl

/-- Witness for `debounce_table`: a state outside `{0, 1, 2, 3}` self-loops. -/
theorem debounce_table_witness : DebounceToggle.get 7 true = (7, false) :=
  debounce_table.2.2.2.2.2.1 7 true (by decide) (by decide) (by decide) (by decide)

/-! Claim C8: `PoissonProcess::draw` with rate exactly 0. -/

theorem draw_fst_eq (avgper lnur acc : ℚ) :
    (PoissonProcess.draw avgper lnur acc).1 = (⌊acc + -avgper * lnur⌋).toNat := rfl

theorem draw_snd_eq (avgper lnur acc : ℚ) :
    (PoissonProcess.draw avgper lnur acc).2 = Int.fract (acc + -avgper * lnur) := rfl

theorem draw_snd_bounds (avgper lnur acc : ℚ) :
    0 ≤ (PoissonProcess.draw avgper lnur acc).2 ∧
      (PoissonProcess.draw avgper lnur acc).2 < 1 := by
  rw [draw_snd_eq]
  exact ⟨Int.fract_nonneg _, Int.fract_lt_one _⟩

theorem runAcc_bounds :
    ∀ (l : List (ℚ × ℚ)) (acc : ℚ), 0 ≤ acc → acc < 1 →
      0 ≤ PoissonProcess.runAcc acc l ∧ PoissonProcess.runAcc acc l < 1 := by
  intro l
  induction l with
  | nil => intro acc h1 h2; exact ⟨h1, h2⟩
  | cons p t ih =>
    intro acc h1 h2
    have hb := draw_snd_bounds p.1 p.2 acc
    exact ih _ hb.1 hb.2

/-- C8: from any accumulator state reachable from construction, a draw with
rate exactly `0` returns count `0` and leaves the accumulator unchanged (hence
repeated calls keep returning `0`), whatever the random source produces. -/
theorem poisson_rate_zero (acc : ℚ) (hreach : PoissonProcess.Reachable acc)
    (lnur : ℚ) : PoissonProcess.draw 0 lnur acc = (0, acc) := by
  obtain ⟨l, rfl⟩ := hreach
  have hm := runAcc_bounds l 0 le_rfl one_pos
  have hz : PoissonProcess.runAcc 0 l + -(0 : ℚ) * lnur = PoissonProcess.runAcc 0 l := by
    ring
  have hf : ⌊PoissonProcess.runAcc 0 l + -(0 : ℚ) * lnur⌋ = 0 := by
    rw [hz]
    exact Int.floor_eq_zero_iff.mpr ⟨hm.1, hm.2⟩
  apply Prod.ext
  · rw [draw_fst_eq, hf]; rfl
  · rw [draw_snd_eq, Int.fract, hf, hz]; simp

/-- Witness for `poisson_rate_zero` at the freshly constructed accumulator. -/
theorem poisson_rate_zero_witness :
    PoissonProcess.Reachable 0 ∧ PoissonProcess.draw 0 (-1) 0 = (0, 0) :=
  ⟨⟨[], rfl⟩, poisson_rate_zero 0 ⟨[], rfl⟩ (-1)⟩

/-! Claim C6: the get/set/clr contract of the bit grid. -/

/-- C6: for every in-bounds coordinate of a well-formed grid, `get` after `set`
returns `true`, `get` after a subsequent `clr` returns `false`, and `set` and
`clr` are idempotent on the grid state. -/
theorem bitgrid_contract (w h x y : Nat) (cf : CellField) (hwf : cf.WF w h)
    (hx : x < w) (hy : y < h) :
    (cf.set x y).get x y = true ∧
    ((cf.set x y).clr x y).get x y = false ∧
    (cf.set x y).set x y = cf.set x y ∧
    (cf.clr x y).clr x y = cf.clr x y :=
  ⟨get_set_self_of_lt cf x y (indices_fst_lt cf w h x y hwf hx hy),
   get_clr_self (cf.set x y) x y, set_idem cf x y, clr_idem cf x y⟩

/-- Witness for `bitgrid_contract` on a concrete 8 × 8 grid. -/
theorem bitgrid_contract_witness :
    ((CellField.new 8 8).set 3 5).get 3 5 = true ∧
    (((CellField.new 8 8).set 3 5).clr 3 5).get 3 5 = false :=
  ⟨(bitgrid_contract 8 8 3 5 (CellField.new 8 8) (by decide) (by decide) (by decide)).1,
   (bitgrid_contract 8 8 3 5 (CellField.new 8 8) (by decide) (by decide) (by decide)).2.1⟩

/-! Claim C7: injective packing and the frame property. -/

/-- C7: on a well-formed grid the map from in-bounds coordinates to
(block, bit) pairs is injective, and consequently `set` or `clr` at one
in-bounds coordinate leaves `get` unchanged at every other in-bounds
coordinate. -/
theorem packing_inj_frame (w h : Nat) (cf : CellField) (hwf : cf.WF w h) :
    (∀ x y x2 y2, x < w → y < h → x2 < w → y2 < h →
      cf.indices x y = cf.indices x2 y2 → x = x2 ∧ y = y2) ∧
    (∀ x y x2 y2, x < w → y < h → x2 < w → y2 < h → (x2, y2) ≠ (x, y) →
      (cf.set x y).get x2 y2 = cf.get x2 y2 ∧
      (cf.clr x y).get x2 y2 = cf.get x2 y2) := by
  constructor
  · intro x y x2 y2 hx hy hx2 hy2 he
    exact indices_inj cf w h x y x2 y2 hwf hx hy hx2 hy2 he
  · intro x y x2 y2 hx hy hx2 hy2 hne
    have hi : cf.indices x2 y2 ≠ cf.indices x y := by
      intro he
      obtain ⟨e1, e2⟩ := indices_inj cf w h x2 y2 x y hwf hx2 hy2 hx hy he
      exact hne (by rw [e1, e2])
    exact ⟨get_set_of_indices_ne cf x y x2 y2 hi, get_clr_of_indices_ne cf x y x2 y2 hi⟩

/-- Witness for `packing_inj_frame` on a concrete 16 × 16 grid: setting (0, 0)
does not affect (9, 9). -/
theorem packing_inj_frame_witness :
    ((CellField.new 16 16).set 0 0).get 9 9 = (CellField.new 16 16).get 9 9 :=
  ((packing_inj_frame 16 16 (CellField.new 16 16) (by decide)).2 0 0 9 9
    (by decide) (by decide) (by decide) (by decide) (by decide)).1

/-! Claim C9: what actually happens on out-of-bounds access. -/

theorem none_iff_oob (cf : CellField) (x y : Nat) :
    (cf.get? x y = none ↔ cf.arr.length ≤ (cf.indices x y).1) ∧
    (cf.set? x y = none ↔ cf.arr.length ≤ (cf.indices x y).1) ∧
    (cf.clr? x y = none ↔ cf.arr.length ≤ (cf.indices x y).1) := by
  unfold CellField.get? CellField.set? CellField.clr?
  by_cases hb : (cf.indices x y).1 < cf.arr.length
  · rw [if_pos hb, if_pos hb, if_pos hb]
    refine ⟨?_, ?_, ?_⟩ <;> exact ⟨fun hs => (nomatch hs), fun hge => absurd hge (Nat.not_le.mpr hb)⟩
  · rw [if_neg hb, if_neg hb, if_neg hb]
    refine ⟨?_, ?_, ?_⟩ <;> exact ⟨fun _ => Nat.le_of_not_lt hb, fun _ => rfl⟩

/-- C9 (amended): on a freshly built `w × h` grid, `get`/`set`/`clr` fail
(Rust `Vec` index panic, modelled as `none`) exactly when the computed block
offset `(y/8)*ystride + x/8` falls outside the block vector; an out-of-bounds
coordinate whose offset is still in range is accessed silently. -/
theorem oob_panics_iff (w h x y : Nat) :
    ((CellField.new w h).get? x y = none ↔
      (w + 7) / 8 * ((h + 7) / 8) ≤ y / 8 * ((w + 7) / 8) + x / 8) ∧
    ((CellField.new w h).set? x y = none ↔
      (w + 7) / 8 * ((h + 7) / 8) ≤ y / 8 * ((w + 7) / 8) + x / 8) ∧
    ((CellField.new w h).clr? x y = none ↔
      (w + 7) / 8 * ((h + 7) / 8) ≤ y / 8 * ((w + 7) / 8) + x / 8) := by
  have hq := none_iff_oob (CellField.new w h) x y
  have hl : (CellField.new w h).arr.length = (w + 7) / 8 * ((h + 7) / 8) :=
    List.length_replicate _ _
  have hi : ((CellField.new w h).indices x y).1 = y / 8 * ((w + 7) / 8) + x / 8 := rfl
  rw [hl, hi] at hq
  exact hq

/-- C9 counterexample: on a 5 × 16 grid the coordinate (8, 0) is out of bounds
(8 ≥ width 5), yet `get` succeeds instead of failing, and `set` silently turns
on the storage of the distinct in-bounds cell (0, 8). -/
theorem oob_counterexample :
    5 ≤ 8 ∧
    (CellField.new 5 16).get? 8 0 = some false ∧
    (CellField.new 5 16).set? 8 0 = some ((CellField.new 5 16).set 8 0) ∧
    ((CellField.new 5 16).set 8 0).get 0 8 = true ∧
    (CellField.new 5 16).get 0 8 = false := by decide

/-- Witness for `oob_panics_iff` at a concrete coordinate whose block offset
is out of range: on a 5 × 5 grid, (16, 0) panics. -/
theorem oob_panics_iff_witness : (CellField.new 5 5).get? 16 0 = none :=
  (oob_panics_iff 5 5 16 0).1.mpr (by decide)

/-! Machinery for the contagion pass (source lines 183–201). -/

theorem fcoords_append (l1 l2 : List Fire) :
    fcoords (l1 ++ l2) = fcoords l1 ++ fcoords l2 :=
  List.map_append _ _ _

theorem fcoords_cons (f : Fire) (t : List Fire) :
    fcoords (f :: t) = (f.x, f.y) :: fcoords t := rfl

theorem mem_fcoords (l : List Fire) (p : Nat × Nat) :
    p ∈ fcoords l ↔ ∃ g ∈ l, (g.x, g.y) = p := by
  unfold fcoords
  rw [List.mem_map]

theorem nodup_fcoords_concat (l : List Fire) (a : Fire)
    (hn : (fcoords l).Nodup) (hnm : (a.x, a.y) ∉ fcoords l) :
    (fcoords (l ++ [a])).Nodup := by
  rw [fcoords_append, List.nodup_append]
  refine ⟨hn, List.nodup_singleton _, ?_⟩
  intro p hp hq
  have hq2 : p = (a.x, a.y) := by simpa [fcoords] using hq
  subst hq2
  exact hnm hp

theorem mono_get_false (g0 : CellField) (cf : CellField)
    (hmono : ∀ x y, cf.get x y = true → g0.get x y = true)
    (x y : Nat) (h0 : g0.get x y = false) : cf.get x y = false := by
  cases hv : cf.get x y
  · rfl
  · rw [hmono x y hv] at h0; cases h0

theorem ignOne_fst_mono (w h : Nat) (f : Fire) (st : CellField × List Fire)
    (d : Int × Int) (x y : Nat)
    (hg : (ignOne w h f st d).1.get x y = true) : st.1.get x y = true := by
  simp only [ignOne] at hg
  split at hg
  · split at hg
    · exact get_clr_imp _ _ _ _ _ hg
    · exact hg
  · exact hg

theorem foldl_ignOne_fst_mono (w h : Nat) (f : Fire) :
    ∀ (ds : List (Int × Int)) (st : CellField × List Fire) (x y : Nat),
      (ds.foldl (ignOne w h f) st).1.get x y = true → st.1.get x y = true := by
  intro ds
  induction ds with
  | nil => intro st x y hg; exact hg
  | cons d t ih =>
    intro st x y hg
    rw [List.foldl_cons] at hg
    exact ignOne_fst_mono w h f st d x y (ih _ x y hg)

theorem fireStepOne_fst_mono (w h ma : Nat) (nghL : List (Int × Int))
    (st : CellField × List Fire) (f : Fire) (x y : Nat)
    (hg : (fireStepOne w h ma nghL st f).1.get x y = true) : st.1.get x y = true := by
  unfold fireStepOne at hg
  have h2 := foldl_ignOne_fst_mono w h f nghL _ x y hg
  split at h2
  · exact h2
  · exact h2

theorem ignite_update_inv (g0 : CellField) (rest : List Fire)
    (hg0 : ∀ r ∈ rest, g0.get r.x r.y = false)
    (st : CellField × List Fire) (cx cy : Nat)
    (hget : st.1.get cx cy = true)
    (hinv : StInv g0 rest st) :
    StInv g0 rest (st.1.clr cx cy, st.2 ++ [⟨cx, cy, 0⟩]) := by
  constructor
  · intro x y hxy
    exact hinv.mono x y (get_clr_imp _ _ _ _ _ hxy)
  · apply nodup_fcoords_concat _ _ hinv.nodup
    intro hmem
    rw [mem_fcoords] at hmem
    obtain ⟨g, hgm, he⟩ := hmem
    obtain ⟨e1, e2⟩ := Prod.mk.injEq .. ▸ he
    have := hinv.accFalse g hgm
    rw [e1, e2, hget] at this
    cases this
  · intro g hgm
    rw [List.mem_append] at hgm
    rcases hgm with hgm | hgm
    · exact get_clr_false _ _ _ _ _ (hinv.accFalse g hgm)
    · rw [List.mem_singleton] at hgm
      subst hgm
      exact get_clr_self _ _ _
  · intro g hgm r hr
    rw [List.mem_append] at hgm
    rcases hgm with hgm | hgm
    · exact hinv.disj g hgm r hr
    · rw [List.mem_singleton] at hgm
      subst hgm
      intro he
      have e1 : cx = r.x := congrArg Prod.fst he
      have e2 : cy = r.y := congrArg Prod.snd he
      have hrf := mono_get_false g0 st.1 hinv.mono r.x r.y (hg0 r hr)
      rw [e1, e2, hrf] at hget
      cases hget

theorem ignOne_inv (w h : Nat) (f : Fire) (g0 : CellField) (rest : List Fire)
    (hg0 : ∀ r ∈ rest, g0.get r.x r.y = false)
    (st : CellField × List Fire) (d : Int × Int)
    (hinv : StInv g0 rest st) : StInv g0 rest (ignOne w h f st d) := by
  simp only [ignOne]
  split
  · split
    · rename_i hget
      exact ignite_update_inv g0 rest hg0 st _ _ hget hinv
    · exact hinv
  · exact hinv

theorem foldl_ignOne_inv (w h : Nat) (f : Fire) (g0 : CellField) (rest : List Fire)
    (hg0 : ∀ r ∈ rest, g0.get r.x r.y = false) :
    ∀ (ds : List (Int × Int)) (st : CellField × List Fire),
      StInv g0 rest st → StInv g0 rest (ds.foldl (ignOne w h f) st) := by
  intro ds
  induction ds with
  | nil => intro st hinv; exact hinv
  | cons d t ih =>
    intro st hinv
    rw [List.foldl_cons]
    exact ih _ (ignOne_inv w h f g0 rest hg0 st d hinv)

theorem fireStepOne_inv (w h ma : Nat) (nghL : List (Int × Int)) (g0 : CellField)
    (f : Fire) (t : List Fire)
    (hnd : (fcoords (f :: t)).Nodup)
    (hg0 : ∀ r ∈ f :: t, g0.get r.x r.y = false)
    (st : CellField × List Fire) (hinv : StInv g0 (f :: t) st) :
    StInv g0 t (fireStepOne w h ma nghL st f) := by
  have hg0t : ∀ r ∈ t, g0.get r.x r.y = false :=
    fun r hr => hg0 r (List.mem_cons_of_mem f hr)
  have hf0 : g0.get f.x f.y = false := hg0 f (List.mem_cons_self f t)
  unfold fireStepOne
  apply foldl_ignOne_inv w h f g0 t hg0t
  split
  · constructor
    · exact hinv.mono
    · apply nodup_fcoords_concat _ _ hinv.nodup
      intro hmem
      rw [mem_fcoords] at hmem
      obtain ⟨g, hgm, he⟩ := hmem
      exact hinv.disj g hgm f (List.mem_cons_self f t) he
    · intro g hgm
      rw [List.mem_append] at hgm
      rcases hgm with hgm | hgm
      · exact hinv.accFalse g hgm
      · rw [List.mem_singleton] at hgm
        subst hgm
        exact mono_get_false g0 st.1 hinv.mono f.x f.y hf0
    · intro g hgm r hr
      rw [List.mem_append] at hgm
      rcases hgm with hgm | hgm
      · exact hinv.disj g hgm r (List.mem_cons_of_mem f hr)
      · rw [List.mem_singleton] at hgm
        subst hgm
        intro he
        have e1 : f.x = r.x := congrArg Prod.fst he
        have e2 : f.y = r.y := congrArg Prod.snd he
        rw [fcoords_cons] at hnd
        have hfn : (f.x, f.y) ∉ fcoords t := (List.nodup_cons.mp hnd).1
        apply hfn
        rw [mem_fcoords]
        exact ⟨r, hr, by rw [e1, e2]⟩
  · exact ⟨hinv.mono, hinv.nodup, hinv.accFalse,
      fun g hgm r hr => hinv.disj g hgm r (List.mem_cons_of_mem f hr)⟩

theorem foldl_fireStepOne_inv (w h ma : Nat) (nghL : List (Int × Int)) (g0 : CellField) :
    ∀ (fires : List Fire) (st : CellField × List Fire),
      (fcoords fires).Nodup →
      (∀ r ∈ fires, g0.get r.x r.y = false) →
      StInv g0 fires st →
      StInv g0 [] (fires.foldl (fireStepOne w h ma nghL) st) := by
  intro fires
  induction fires with
  | nil => intro st _ _ hinv; exact hinv
  | cons f t ih =>
    intro st hnd hg0 hinv
    rw [List.foldl_cons]
    refine ih _ ?_ ?_ ?_
    · rw [fcoords_cons] at hnd
      exact (List.nodup_cons.mp hnd).2
    · exact fun r hr => hg0 r (List.mem_cons_of_mem f hr)
    · exact fireStepOne_inv w h ma nghL g0 f t hnd hg0 st hinv

/-- A step with no spontaneous fires, no manual ignitions and no regrowth is
just the contagion pass. -/
theorem step_no_input_eq (w h : Nat) (ec : Bool) (ma : Nat) (cf : CellField)
    (fires : List Fire) :
    step w h ec ma cf fires [] [] [] =
      fires.foldl (fireStepOne w h ma (nghOf ec)) (cf, []) := by
  unfold step propagate
  simp

theorem ignOne_accFalse (w h : Nat) (f : Fire) (st : CellField × List Fire)
    (d : Int × Int)
    (hacc : ∀ g ∈ st.2, st.1.get g.x g.y = false) :
    ∀ g ∈ (ignOne w h f st d).2, (ignOne w h f st d).1.get g.x g.y = false := by
  simp only [ignOne]
  split
  · split
    · intro g hgm
      rw [List.mem_append] at hgm
      rcases hgm with hgm | hgm
      · exact get_clr_false _ _ _ _ _ (hacc g hgm)
      · rw [List.mem_singleton] at hgm
        subst hgm
        exact get_clr_self _ _ _
    · exact hacc
  · exact hacc

theorem foldl_ignOne_accFalse (w h : Nat) (f : Fire) :
    ∀ (ds : List (Int × Int)) (st : CellField × List Fire),
      (∀ g ∈ st.2, st.1.get g.x g.y = false) →
      ∀ g ∈ (ds.foldl (ignOne w h f) st).2,
        (ds.foldl (ignOne w h f) st).1.get g.x g.y = false := by
  intro ds
  induction ds with
  | nil => intro st hacc; exact hacc
  | cons d t ih =>
    intro st hacc
    rw [List.foldl_cons]
    exact ih _ (ignOne_accFalse w h f st d hacc)

theorem fireStepOne_accFalse (w h ma : Nat) (nghL : List (Int × Int)) (g0 : CellField)
    (st : CellField × List Fire) (f : Fire)
    (hmono : ∀ x y, st.1.get x y = true → g0.get x y = true)
    (hf0 : g0.get f.x f.y = false)
    (hacc : ∀ g ∈ st.2, st.1.get g.x g.y = false) :
    ∀ g ∈ (fireStepOne w h ma nghL st f).2,
      (fireStepOne w h ma nghL st f).1.get g.x g.y = false := by
  unfold fireStepOne
  apply foldl_ignOne_accFalse
  split
  · intro g hgm
    rw [List.mem_append] at hgm
    rcases hgm with hgm | hgm
    · exact hacc g hgm
    · rw [List.mem_singleton] at hgm
      subst hgm
      exact mono_get_false g0 st.1 hmono f.x f.y hf0
  · exact hacc

theorem foldl_fireStepOne_accFalse (w h ma : Nat) (nghL : List (Int × Int))
    (g0 : CellField) :
    ∀ (fires : List Fire) (st : CellField × List Fire),
      (∀ x y, st.1.get x y = true → g0.get x y = true) →
      (∀ r ∈ fires, g0.get r.x r.y = false) →
      (∀ g ∈ st.2, st.1.get g.x g.y = false) →
      ∀ g ∈ (fires.foldl (fireStepOne w h ma nghL) st).2,
        (fires.foldl (fireStepOne w h ma nghL) st).1.get g.x g.y = false := by
  intro fires
  induction fires with
  | nil => intro st _ _ hacc; exact hacc
  | cons f t ih =>
    intro st hmono hg0 hacc
    rw [List.foldl_cons]
    refine ih _ ?_ ?_ ?_
    · exact fun x y hv => hmono x y (fireStepOne_fst_mono w h ma nghL st f x y hv)
    · exact fun r hr => hg0 r (List.mem_cons_of_mem f hr)
    · exact fireStepOne_accFalse w h ma nghL g0 st f hmono
        (hg0 f (List.mem_cons_self f t)) hacc

/-! Claim C2: burning cells versus grid occupancy. -/

/-- C2 (amended): contagion clears occupancy at the moment of catching fire,
so a step with no spontaneous draws, no manual ignitions and no regrowth
preserves the invariant that no burning coordinate is occupied; spontaneous and
manual ignitions, however, are pushed without clearing occupancy, and regrowth
can re-occupy a burning coordinate, so the invariant does not survive those
inputs (see the counterexample). -/
theorem step_burning_unoccupied (w h : Nat) (ec : Bool) (ma : Nat)
    (cf : CellField) (fires : List Fire)
    (h2 : ∀ r ∈ fires, cf.get r.x r.y = false) :
    ∀ g ∈ (step w h ec ma cf fires [] [] []).2,
      (step w h ec ma cf fires [] [] []).1.get g.x g.y = false := by
  rw [step_no_input_eq]
  exact foldl_fireStepOne_accFalse w h ma (nghOf ec) cf fires (cf, [])
    (fun x y hv => hv) h2 (fun g hg => absurd hg (List.not_mem_nil g))

/-- C2 counterexample: a spontaneous ignition landing on an occupied cell
leaves the cell both burning and occupied after the step — its occupancy bit is
not cleared when it is added to the fire set. -/
theorem spontaneous_keeps_occupied :
    (⟨0, 0, 0⟩ : Fire) ∈ (step 1 1 false 1 ((CellField.new 1 1).set 0 0) [] [(0, 0)] [] []).2 ∧
    (step 1 1 false 1 ((CellField.new 1 1).set 0 0) [] [(0, 0)] [] []).1.get 0 0 = true := by
  decide

/-- Witness for `step_burning_unoccupied`: one carried fire on an empty 1 × 1
grid stays unoccupied. -/
theorem step_burning_unoccupied_witness :
    (step 1 1 false 1 (CellField.new 1 1) [⟨0, 0, 0⟩] [] [] []).1.get 0 0 = false :=
  step_burning_unoccupied 1 1 false 1 (CellField.new 1 1) [⟨0, 0, 0⟩]
    (by decide) ⟨0, 0, 1⟩ (by decide)

/-! Claim C3: no duplicate coordinate inside one step's output. -/

/-- C3 (amended): in a step with no spontaneous and no manual ignitions, if
the incoming fire list has pairwise distinct coordinates none of which is
occupied, then every coordinate appears at most once in the produced fire list
(contagion's first-writer-wins via clear-on-ignite); spontaneous and manual
ignitions are appended with no duplicate check, so they can duplicate a
coordinate (see the counterexample). -/
theorem step_nodup (w h : Nat) (ec : Bool) (ma : Nat) (cf : CellField)
    (fires : List Fire)
    (h1 : (fcoords fires).Nodup)
    (h2 : ∀ r ∈ fires, cf.get r.x r.y = false) :
    (fcoords (step w h ec ma cf fires [] [] []).2).Nodup := by
  rw [step_no_input_eq]
  have hbase : StInv cf fires (cf, []) :=
    ⟨fun x y hg => hg, List.nodup_nil,
     fun g hg => absurd hg (List.not_mem_nil g),
     fun g hg => absurd hg (List.not_mem_nil g)⟩
  exact (foldl_fireStepOne_inv w h ma (nghOf ec) cf fires (cf, []) h1 h2 hbase).nodup

/-- C3 counterexample: two spontaneous draws at the same coordinate in a single
step put the coordinate twice into the next fire list. -/
theorem step_dup_counterexample :
    ¬ (fcoords (step 1 1 false 1 (CellField.new 1 1) [] [(0, 0), (0, 0)] [] []).2).Nodup := by
  decide

/-- Witness for `step_nodup` on a concrete step. -/
theorem step_nodup_witness :
    (fcoords (step 2 2 false 1 (CellField.new 2 2) [⟨0, 0, 0⟩] [] [] []).2).Nodup :=
  step_nodup 2 2 false 1 (CellField.new 2 2) [⟨0, 0, 0⟩] (by decide) (by decide)

/-! Claim C10: the age bound after one step. -/

theorem ignOne_age (w h ma : Nat) (f : Fire) (st : CellField × List Fire)
    (d : Int × Int) (hacc : ∀ g ∈ st.2, g.age ≤ ma) :
    ∀ g ∈ (ignOne w h f st d).2, g.age ≤ ma := by
  simp only [ignOne]
  split
  · split
    · intro g hgm
      rw [List.mem_append] at hgm
      rcases hgm with hgm | hgm
      · exact hacc g hgm
      · rw [List.mem_singleton] at hgm
        subst hgm
        exact Nat.zero_le ma
    · exact hacc
  · exact hacc

theorem foldl_ignOne_age (w h ma : Nat) (f : Fire) :
    ∀ (ds : List (Int × Int)) (st : CellField × List Fire),
      (∀ g ∈ st.2, g.age ≤ ma) →
      ∀ g ∈ (ds.foldl (ignOne w h f) st).2, g.age ≤ ma := by
  intro ds
  induction ds with
  | nil => intro st hacc; exact hacc
  | cons d t ih =>
    intro st hacc
    rw [List.foldl_cons]
    exact ih _ (ignOne_age w h ma f st d hacc)

theorem fireStepOne_age (w h ma : Nat) (nghL : List (Int × Int))
    (st : CellField × List Fire) (f : Fire)
    (hacc : ∀ g ∈ st.2, g.age ≤ ma) :
    ∀ g ∈ (fireStepOne w h ma nghL st f).2, g.age ≤ ma := by
  unfold fireStepOne
  apply foldl_ignOne_age
  split
  · rename_i hlt
    intro g hgm
    rw [List.mem_append] at hgm
    rcases hgm with hgm | hgm
    · exact hacc g hgm
    · rw [List.mem_singleton] at hgm
      subst hgm
      exact hlt
  · exact hacc

theorem foldl_fireStepOne_age (w h ma : Nat) (nghL : List (Int × Int)) :
    ∀ (fires : List Fire) (st : CellField × List Fire),
      (∀ g ∈ st.2, g.age ≤ ma) →
      ∀ g ∈ (fires.foldl (fireStepOne w h ma nghL) st).2, g.age ≤ ma := by
  intro fires
  induction fires with
  | nil => intro st hacc; exact hacc
  | cons f t ih =>
    intro st hacc
    rw [List.foldl_cons]
    exact ih _ (fireStepOne_age w h ma nghL st f hacc)

/-- C10: after one step with any inputs, every cell of the produced fire list
has age at most `firemaxage` (the `usize` floor of the slider value): a cell is
carried only when its age is strictly below the bound, and every newly ignited
cell — by contagion, spontaneous draw or manual trigger — starts at age 0. -/
theorem step_age_bound (w h : Nat) (ec : Bool) (ma : Nat) (cf : CellField)
    (fires : List Fire) (spont manual regrow : List (Nat × Nat)) :
    ∀ g ∈ (step w h ec ma cf fires spont manual regrow).2, g.age ≤ ma := by
  intro g hgm
  simp only [step, propagate, List.mem_append, List.mem_map] at hgm
  rcases hgm with (hgm | ⟨p, hp, he⟩) | ⟨p, hp, he⟩
  · exact foldl_fireStepOne_age w h ma (nghOf ec) fires (cf, [])
      (fun g2 hg2 => absurd hg2 (List.not_mem_nil g2)) g hgm
  · subst he; exact Nat.zero_le ma
  · subst he; exact Nat.zero_le ma

/-- Witness for `step_age_bound`: the carried cell of a concrete step. -/
theorem step_age_bound_witness : (⟨0, 0, 1⟩ : Fire).age ≤ 1 :=
  step_age_bound 1 1 false 1 (CellField.new 1 1) [⟨0, 0, 0⟩] [] [] []
    ⟨0, 0, 1⟩ (by decide)

/-! Claim C1: the single-ignition propagation scenario. -/

theorem step_inv_aux (w h : Nat) (ec : Bool) (ma : Nat) (cf : CellField)
    (fires : List Fire)
    (h1 : (fcoords fires).Nodup) (h2 : ∀ r ∈ fires, cf.get r.x r.y = false) :
    (fcoords (step w h ec ma cf fires [] [] []).2).Nodup ∧
    ∀ g ∈ (step w h ec ma cf fires [] [] []).2,
      (step w h ec ma cf fires [] [] []).1.get g.x g.y = false := by
  rw [step_no_input_eq]
  have hbase : StInv cf fires (cf, []) :=
    ⟨fun x y hg => hg, List.nodup_nil,
     fun g hg => absurd hg (List.not_mem_nil g),
     fun g hg => absurd hg (List.not_mem_nil g)⟩
  have hfin := foldl_fireStepOne_inv w h ma (nghOf ec) cf fires (cf, []) h1 h2 hbase
  exact ⟨hfin.nodup, hfin.accFalse⟩

set_option maxRecDepth 40000 in
theorem c1_inv : ∀ n : Nat,
    (fcoords (c1Run (n + 2)).2).Nodup ∧
    ∀ g ∈ (c1Run (n + 2)).2, (c1Run (n + 2)).1.get g.x g.y = false := by
  intro n
  induction n with
  | zero => exact ⟨by decide, by decide⟩
  | succ m ih =>
    exact step_inv_aux 5 5 false 1 (c1Run (m + 2)).1 (c1Run (m + 2)).2 ih.1 ih.2

set_option maxRecDepth 40000 in
/-- C1 (amended): in the single-ignition scenario (5 × 5 fully occupied grid,
manual ignition of (2, 2) at step 0, maxFireAge 1, both rates 0, 4-connected
neighbors), step 1 produces exactly the burning list
[(2,2) at age 1, (1,2), (3,2), (2,1), (2,3) at age 0]; the grid is cleared at
the four neighbor coordinates but remains occupied at (2, 2) itself, because
manual ignition does not clear occupancy; step 2 drops the aged-out (2, 2) but
immediately re-ignites it at age 0 by contagion from its burning neighbors
while propagating the fire outward; and at no step does any coordinate appear
twice in the fire list. -/
theorem single_ignition_amended :
    (c1Run 1).2 = [⟨2, 2, 1⟩, ⟨1, 2, 0⟩, ⟨3, 2, 0⟩, ⟨2, 1, 0⟩, ⟨2, 3, 0⟩] ∧
    ((c1Run 1).1.get 1 2 = false ∧ (c1Run 1).1.get 3 2 = false ∧
      (c1Run 1).1.get 2 1 = false ∧ (c1Run 1).1.get 2 3 = false) ∧
    (c1Run 1).1.get 2 2 = true ∧
    (c1Run 2).2 = [⟨1, 2, 1⟩, ⟨0, 2, 0⟩, ⟨2, 2, 0⟩, ⟨1, 1, 0⟩, ⟨1, 3, 0⟩,
      ⟨3, 2, 1⟩, ⟨4, 2, 0⟩, ⟨3, 1, 0⟩, ⟨3, 3, 0⟩, ⟨2, 1, 1⟩, ⟨2, 0, 0⟩,
      ⟨2, 3, 1⟩, ⟨2, 4, 0⟩] ∧
    ∀ n : Nat, (fcoords (c1Run n).2).Nodup := by
  refine ⟨by decide, by decide, by decide, by decide, ?_⟩
  intro n
  rcases n with _ | n
  · decide
  rcases n with _ | m
  · decide
  · exact (c1_inv m).1

/-! Claim C4: order independence of the contagion pass.  The pass is
characterised: a queried in-bounds coordinate stays occupied iff it was
occupied and is not an in-bounds neighbor of any burning cell, and the output
list holds exactly the carried cells plus one age-0 entry for every
initially occupied in-bounds neighbor of a burning cell.  Both descriptions
depend on the fire list and the offset table only through membership, so they
are invariant under permutation. -/

theorem hits_bounds (w h : Nat) (f : Fire) (d : Int × Int) (x y : Nat)
    (hh : hits w h f d x y) : x < w ∧ y < h := by
  obtain ⟨h1, h2, h3, h4, h5, h6⟩ := hh
  omega

theorem and_not_or_iff (A B C : Prop) (hB : ¬ B) : (A ∧ ¬ C) ↔ (A ∧ ¬ (B ∨ C)) := by
  tauto

theorem and_not_and_not_iff (A B C : Prop) : ((A ∧ ¬ B) ∧ ¬ C) ↔ (A ∧ ¬ (B ∨ C)) := by
  tauto

theorem get_clr_of_ne (cf : CellField) (w h : Nat) (hwf : cf.WF w h)
    (a b x y : Nat) (ha : a < w) (hb : b < h) (hx : x < w) (hy : y < h)
    (hne : (x, y) ≠ (a, b)) : (cf.clr a b).get x y = cf.get x y := by
  apply get_clr_of_indices_ne
  intro he
  obtain ⟨e1, e2⟩ := indices_inj cf w h x y a b hwf hx hy ha hb he
  exact hne (by rw [e1, e2])

theorem ignOne_WF (w h : Nat) (f : Fire) (st : CellField × List Fire)
    (d : Int × Int) (hwf : st.1.WF w h) : (ignOne w h f st d).1.WF w h := by
  simp only [ignOne]
  split
  · split
    · exact WF_clr _ _ _ _ _ hwf
    · exact hwf
  · exact hwf

theorem foldl_ignOne_WF (w h : Nat) (f : Fire) :
    ∀ (ds : List (Int × Int)) (st : CellField × List Fire),
      st.1.WF w h → (ds.foldl (ignOne w h f) st).1.WF w h := by
  intro ds
  induction ds with
  | nil => intro st hwf; exact hwf
  | cons d t ih =>
    intro st hwf
    rw [List.foldl_cons]
    exact ih _ (ignOne_WF w h f st d hwf)

theorem fire_eq (g : Fire) (a b : Nat) (hx : g.x = a) (hy : g.y = b)
    (ha : g.age = 0) : g = ⟨a, b, 0⟩ := by
  cases g
  simp_all

theorem foldl_ignOne_get (w h : Nat) (f : Fire) :
    ∀ (ds : List (Int × Int)) (st : CellField × List Fire) (x y : Nat),
      st.1.WF w h → x < w → y < h →
      ((ds.foldl (ignOne w h f) st).1.get x y = true ↔
        st.1.get x y = true ∧ ¬ ∃ d ∈ ds, hits w h f d x y) := by
  intro ds
  induction ds with
  | nil => intro st x y hwf hx hy; simp
  | cons d t ih =>
    intro st x y hwf hx hy
    rw [List.foldl_cons]
    simp only [List.mem_cons, exists_eq_or_imp]
    by_cases hb : 0 ≤ (f.x : Int) + d.1 ∧ (f.x : Int) + d.1 < (w : Int) ∧
        0 ≤ (f.y : Int) + d.2 ∧ (f.y : Int) + d.2 < (h : Int)
    · by_cases hget :
          st.1.get ((f.x : Int) + d.1).toNat ((f.y : Int) + d.2).toNat = true
      · have he : ignOne w h f st d =
            (st.1.clr ((f.x : Int) + d.1).toNat ((f.y : Int) + d.2).toNat,
             st.2 ++ [⟨((f.x : Int) + d.1).toNat, ((f.y : Int) + d.2).toNat, 0⟩]) := by
          simp only [ignOne]
          rw [if_pos hb, if_pos hget]
        rw [he, ih _ x y (WF_clr _ _ _ _ _ hwf) hx hy]
        by_cases hxy : x = ((f.x : Int) + d.1).toNat ∧ y = ((f.y : Int) + d.2).toNat
        · have hh0 : hits w h f d x y :=
            ⟨hb.1, hb.2.1, hb.2.2.1, hb.2.2.2, hxy.1.symm, hxy.2.symm⟩
          have hclr : (st.1.clr ((f.x : Int) + d.1).toNat
              ((f.y : Int) + d.2).toNat).get x y = false := by
            rw [hxy.1, hxy.2]
            exact get_clr_self _ _ _
          constructor
          · intro hc
            rw [hclr] at hc
            exact Bool.noConfusion hc.1
          · intro hc
            exact absurd (Or.inl hh0) hc.2
        · have hne : (x, y) ≠ (((f.x : Int) + d.1).toNat, ((f.y : Int) + d.2).toNat) :=
            fun hp => hxy ⟨congrArg Prod.fst hp, congrArg Prod.snd hp⟩
          have hcx : ((f.x : Int) + d.1).toNat < w := by omega
          have hcy : ((f.y : Int) + d.2).toNat < h := by omega
          rw [get_clr_of_ne st.1 w h hwf _ _ x y hcx hcy hx hy hne]
          have hnh : ¬ hits w h f d x y := by
            intro hh
            exact hne (by rw [← hh.2.2.2.2.1, ← hh.2.2.2.2.2])
          exact and_not_or_iff _ _ _ hnh
      · have he : ignOne w h f st d = st := by
          simp only [ignOne]
          rw [if_pos hb, if_neg hget]
        rw [he, ih _ x y hwf hx hy]
        by_cases hxy : x = ((f.x : Int) + d.1).toNat ∧ y = ((f.y : Int) + d.2).toNat
        · have hsg : st.1.get x y = false := by
            rw [hxy.1, hxy.2]
            cases hv : st.1.get ((f.x : Int) + d.1).toNat ((f.y : Int) + d.2).toNat
            · rfl
            · exact absurd hv hget
          rw [hsg]
          constructor
          · intro hc
            exact Bool.noConfusion hc.1
          · intro hc
            exact Bool.noConfusion hc.1
        · have hnh : ¬ hits w h f d x y := by
            intro hh
            exact hxy ⟨hh.2.2.2.2.1.symm, hh.2.2.2.2.2.symm⟩
          exact and_not_or_iff _ _ _ hnh
    · have he : ignOne w h f st d = st := by
        simp only [ignOne]
        rw [if_neg hb]
      rw [he, ih _ x y hwf hx hy]
      have hnh : ¬ hits w h f d x y := by
        intro hh
        exact hb ⟨hh.1, hh.2.1, hh.2.2.1, hh.2.2.2.1⟩
      exact and_not_or_iff _ _ _ hnh

theorem foldl_ignOne_mem (w h : Nat) (f : Fire) :
    ∀ (ds : List (Int × Int)) (st : CellField × List Fire) (g : Fire),
      st.1.WF w h →
      (g ∈ (ds.foldl (ignOne w h f) st).2 ↔
        g ∈ st.2 ∨ (g.age = 0 ∧ st.1.get g.x g.y = true ∧
          ∃ d ∈ ds, hits w h f d g.x g.y)) := by
  intro ds
  induction ds with
  | nil => intro st g hwf; simp
  | cons d t ih =>
    intro st g hwf
    rw [List.foldl_cons]
    simp only [List.mem_cons, exists_eq_or_imp]
    by_cases hb : 0 ≤ (f.x : Int) + d.1 ∧ (f.x : Int) + d.1 < (w : Int) ∧
        0 ≤ (f.y : Int) + d.2 ∧ (f.y : Int) + d.2 < (h : Int)
    · by_cases hget :
          st.1.get ((f.x : Int) + d.1).toNat ((f.y : Int) + d.2).toNat = true
      · have he : ignOne w h f st d =
            (st.1.clr ((f.x : Int) + d.1).toNat ((f.y : Int) + d.2).toNat,
             st.2 ++ [⟨((f.x : Int) + d.1).toNat, ((f.y : Int) + d.2).toNat, 0⟩]) := by
          simp only [ignOne]
          rw [if_pos hb, if_pos hget]
        rw [he, ih _ g (WF_clr _ _ _ _ _ hwf)]
        rw [List.mem_append, List.mem_singleton]
        have hh0 : hits w h f d ((f.x : Int) + d.1).toNat ((f.y : Int) + d.2).toNat :=
          ⟨hb.1, hb.2.1, hb.2.2.1, hb.2.2.2, rfl, rfl⟩
        constructor
        · rintro ((hg | rfl) | ⟨ha, hg2, d2, hd2, hh⟩)
          · exact Or.inl hg
          · exact Or.inr ⟨rfl, hget, Or.inl hh0⟩
          · have hbx := hits_bounds w h f d2 g.x g.y hh
            by_cases hxy : g.x = ((f.x : Int) + d.1).toNat ∧
                g.y = ((f.y : Int) + d.2).toNat
            · exfalso
              rw [hxy.1, hxy.2, get_clr_self] at hg2
              exact Bool.noConfusion hg2
            · have hne : (g.x, g.y) ≠
                  (((f.x : Int) + d.1).toNat, ((f.y : Int) + d.2).toNat) :=
                fun hp => hxy ⟨congrArg Prod.fst hp, congrArg Prod.snd hp⟩
              have hcx : ((f.x : Int) + d.1).toNat < w := by omega
              have hcy : ((f.y : Int) + d.2).toNat < h := by omega
              rw [get_clr_of_ne st.1 w h hwf _ _ g.x g.y hcx hcy hbx.1 hbx.2 hne] at hg2
              exact Or.inr ⟨ha, hg2, Or.inr ⟨d2, hd2, hh⟩⟩
        · rintro (hg | ⟨ha, hg2, (hh | ⟨d2, hd2, hh⟩)⟩)
          · exact Or.inl (Or.inl hg)
          · left; right
            exact fire_eq g _ _ hh.2.2.2.2.1.symm hh.2.2.2.2.2.symm ha
          · have hbx := hits_bounds w h f d2 g.x g.y hh
            by_cases hxy : g.x = ((f.x : Int) + d.1).toNat ∧
                g.y = ((f.y : Int) + d.2).toNat
            · left; right
              exact fire_eq g _ _ hxy.1 hxy.2 ha
            · have hne : (g.x, g.y) ≠
                  (((f.x : Int) + d.1).toNat, ((f.y : Int) + d.2).toNat) :=
                fun hp => hxy ⟨congrArg Prod.fst hp, congrArg Prod.snd hp⟩
              have hcx : ((f.x : Int) + d.1).toNat < w := by omega
              have hcy : ((f.y : Int) + d.2).toNat < h := by omega
              right
              refine ⟨ha, ?_, d2, hd2, hh⟩
              rw [get_clr_of_ne st.1 w h hwf _ _ g.x g.y hcx hcy hbx.1 hbx.2 hne]
              exact hg2
      · have he : ignOne w h f st d = st := by
          simp only [ignOne]
          rw [if_pos hb, if_neg hget]
        rw [he, ih _ g hwf]
        constructor
        · rintro (hg | ⟨ha, hg2, d2, hd2, hh⟩)
          · exact Or.inl hg
          · exact Or.inr ⟨ha, hg2, Or.inr ⟨d2, hd2, hh⟩⟩
        · rintro (hg | ⟨ha, hg2, (hh | ⟨d2, hd2, hh⟩)⟩)
          · exact Or.inl hg
          · exfalso
            apply hget
            rw [hh.2.2.2.2.1, hh.2.2.2.2.2]
            exact hg2
          · exact Or.inr ⟨ha, hg2, d2, hd2, hh⟩
    · have he : ignOne w h f st d = st := by
        simp only [ignOne]
        rw [if_neg hb]
      rw [he, ih _ g hwf]
      have hnh : ¬ hits w h f d g.x g.y := by
        intro hh
        exact hb ⟨hh.1, hh.2.1, hh.2.2.1, hh.2.2.2.1⟩
      constructor
      · rintro (hg | ⟨ha, hg2, d2, hd2, hh⟩)
        · exact Or.inl hg
        · exact Or.inr ⟨ha, hg2, Or.inr ⟨d2, hd2, hh⟩⟩
      · rintro (hg | ⟨ha, hg2, (hh | ⟨d2, hd2, hh⟩)⟩)
        · exact Or.inl hg
        · exact absurd hh hnh
        · exact Or.inr ⟨ha, hg2, d2, hd2, hh⟩

theorem fireStepOne_WF (w h ma : Nat) (nghL : List (Int × Int))
    (st : CellField × List Fire) (f : Fire) (hwf : st.1.WF w h) :
    (fireStepOne w h ma nghL st f).1.WF w h := by
  unfold fireStepOne
  split
  · exact foldl_ignOne_WF w h f nghL _ hwf
  · exact foldl_ignOne_WF w h f nghL _ hwf

theorem fireStepOne_get (w h ma : Nat) (nghL : List (Int × Int))
    (st : CellField × List Fire) (f : Fire) (x y : Nat) (hwf : st.1.WF w h)
    (hx : x < w) (hy : y < h) :
    ((fireStepOne w h ma nghL st f).1.get x y = true ↔
      st.1.get x y = true ∧ ¬ ∃ d ∈ nghL, hits w h f d x y) := by
  unfold fireStepOne
  split
  · exact foldl_ignOne_get w h f nghL _ x y hwf hx hy
  · exact foldl_ignOne_get w h f nghL _ x y hwf hx hy

theorem fireStepOne_mem (w h ma : Nat) (nghL : List (Int × Int))
    (st : CellField × List Fire) (f : Fire) (g : Fire) (hwf : st.1.WF w h) :
    (g ∈ (fireStepOne w h ma nghL st f).2 ↔
      g ∈ st.2 ∨ (f.age < ma ∧ g = ⟨f.x, f.y, f.age + 1⟩) ∨
      (g.age = 0 ∧ st.1.get g.x g.y = true ∧
        ∃ d ∈ nghL, hits w h f d g.x g.y)) := by
  simp only [fireStepOne]
  split
  · rename_i hlt
    rw [foldl_ignOne_mem w h f nghL (st.1, st.2 ++ [Fire.mk f.x f.y (f.age + 1)]) g hwf]
    dsimp only
    rw [List.mem_append, List.mem_singleton]
    constructor
    · rintro ((hg | rfl) | hign)
      · exact Or.inl hg
      · exact Or.inr (Or.inl ⟨hlt, rfl⟩)
      · exact Or.inr (Or.inr hign)
    · rintro (hg | ⟨_, rfl⟩ | hign)
      · exact Or.inl (Or.inl hg)
      · exact Or.inl (Or.inr rfl)
      · exact Or.inr hign
  · rename_i hlt
    rw [foldl_ignOne_mem w h f nghL _ g hwf]
    constructor
    · rintro (hg | hign)
      · exact Or.inl hg
      · exact Or.inr (Or.inr hign)
    · rintro (hg | ⟨hcon, _⟩ | hign)
      · exact Or.inl hg
      · exact absurd hcon hlt
      · exact Or.inr hign

theorem foldl_fireStepOne_get (w h ma : Nat) (nghL : List (Int × Int)) :
    ∀ (fires : List Fire) (st : CellField × List Fire) (x y : Nat),
      st.1.WF w h → x < w → y < h →
      ((fires.foldl (fireStepOne w h ma nghL) st).1.get x y = true ↔
        st.1.get x y = true ∧ ¬ ∃ f ∈ fires, ∃ d ∈ nghL, hits w h f d x y) := by
  intro fires
  induction fires with
  | nil => intro st x y hwf hx hy; simp
  | cons f t ih =>
    intro st x y hwf hx hy
    rw [List.foldl_cons, ih _ x y (fireStepOne_WF w h ma nghL st f hwf) hx hy,
      fireStepOne_get w h ma nghL st f x y hwf hx hy]
    simp only [List.mem_cons, exists_eq_or_imp]
    exact and_not_and_not_iff _ _ _

theorem foldl_fireStepOne_mem (w h ma : Nat) (nghL : List (Int × Int)) :
    ∀ (fires : List Fire) (st : CellField × List Fire) (g : Fire),
      st.1.WF w h →
      (g ∈ (fires.foldl (fireStepOne w h ma nghL) st).2 ↔
        g ∈ st.2 ∨ (∃ f ∈ fires, f.age < ma ∧ g = ⟨f.x, f.y, f.age + 1⟩) ∨
        (g.age = 0 ∧ st.1.get g.x g.y = true ∧
          ∃ f ∈ fires, ∃ d ∈ nghL, hits w h f d g.x g.y)) := by
  intro fires
  induction fires with
  | nil => intro st g hwf; simp
  | cons f t ih =>
    intro st g hwf
    rw [List.foldl_cons, ih _ g (fireStepOne_WF w h ma nghL st f hwf)]
    simp only [List.mem_cons, exists_eq_or_imp]
    constructor
    · rintro (hg | ⟨f2, hf2, hcar⟩ | ⟨ha, hg2, f2, hf2, d2, hd2, hh⟩)
      · rw [fireStepOne_mem w h ma nghL st f g hwf] at hg
        rcases hg with hg | hcar | ⟨ha, hg2, d2, hd2, hh⟩
        · exact Or.inl hg
        · exact Or.inr (Or.inl (Or.inl hcar))
        · exact Or.inr (Or.inr ⟨ha, hg2, Or.inl ⟨d2, hd2, hh⟩⟩)
      · exact Or.inr (Or.inl (Or.inr ⟨f2, hf2, hcar⟩))
      · have hbx := hits_bounds w h f2 d2 g.x g.y hh
        rw [fireStepOne_get w h ma nghL st f g.x g.y hwf hbx.1 hbx.2] at hg2
        exact Or.inr (Or.inr ⟨ha, hg2.1, Or.inr ⟨f2, hf2, d2, hd2, hh⟩⟩)
    · rintro (hg | (hcar | ⟨f2, hf2, hcar⟩) | ⟨ha, hg2, (⟨d2, hd2, hh⟩ | ⟨f2, hf2, d2, hd2, hh⟩)⟩)
      · left
        rw [fireStepOne_mem w h ma nghL st f g hwf]
        exact Or.inl hg
      · left
        rw [fireStepOne_mem w h ma nghL st f g hwf]
        exact Or.inr (Or.inl hcar)
      · exact Or.inr (Or.inl ⟨f2, hf2, hcar⟩)
      · left
        rw [fireStepOne_mem w h ma nghL st f g hwf]
        exact Or.inr (Or.inr ⟨ha, hg2, d2, hd2, hh⟩)
      · have hbx := hits_bounds w h f2 d2 g.x g.y hh
        by_cases hcl : (fireStepOne w h ma nghL st f).1.get g.x g.y = true
        · exact Or.inr (Or.inr ⟨ha, hcl, f2, hf2, d2, hd2, hh⟩)
        · left
          rw [fireStepOne_mem w h ma nghL st f g hwf]
          rw [fireStepOne_get w h ma nghL st f g.x g.y hwf hbx.1 hbx.2] at hcl
          push_neg at hcl
          exact Or.inr (Or.inr ⟨ha, hg2, hcl hg2⟩)

theorem hits_perm (w h : Nat) (fires1 fires2 : List Fire)
    (ngh1 ngh2 : List (Int × Int)) (hp : fires1.Perm fires2)
    (hn : ngh1.Perm ngh2) (x y : Nat) :
    (∃ f ∈ fires1, ∃ d ∈ ngh1, hits w h f d x y) ↔
      (∃ f ∈ fires2, ∃ d ∈ ngh2, hits w h f d x y) := by
  constructor
  · rintro ⟨f, hf, d, hd, hh⟩
    exact ⟨f, hp.mem_iff.mp hf, d, hn.mem_iff.mp hd, hh⟩
  · rintro ⟨f, hf, d, hd, hh⟩
    exact ⟨f, hp.mem_iff.mpr hf, d, hn.mem_iff.mpr hd, hh⟩

theorem bool_eq_of_iff (a b : Bool) (h : a = true ↔ b = true) : a = b := by
  cases a <;> cases b <;> simp_all

/-- C4: permuting both the order in which burning cells are iterated and the
order in which each cell's neighbor offsets are examined changes neither the
resulting grid occupancy (at any in-bounds coordinate of a well-formed grid)
nor which cells — carried or ignited at age 0 — appear in the produced fire
list, because clear-on-ignite makes the pass depend only on which coordinates
are occupied neighbors of burning cells. -/
theorem contagion_order_independent (w h ma : Nat) (cf : CellField)
    (hwf : cf.WF w h) (fires1 fires2 : List Fire)
    (ngh1 ngh2 : List (Int × Int)) (hp : fires1.Perm fires2)
    (hn : ngh1.Perm ngh2) :
    (∀ x y, x < w → y < h →
      (propagate w h ma ngh1 cf fires1).1.get x y =
        (propagate w h ma ngh2 cf fires2).1.get x y) ∧
    (∀ g : Fire, g ∈ (propagate w h ma ngh1 cf fires1).2 ↔
      g ∈ (propagate w h ma ngh2 cf fires2).2) := by
  constructor
  · intro x y hx hy
    apply bool_eq_of_iff
    unfold propagate
    rw [foldl_fireStepOne_get w h ma ngh1 fires1 (cf, []) x y hwf hx hy,
      foldl_fireStepOne_get w h ma ngh2 fires2 (cf, []) x y hwf hx hy,
      hits_perm w h fires1 fires2 ngh1 ngh2 hp hn x y]
  · intro g
    unfold propagate
    rw [foldl_fireStepOne_mem w h ma ngh1 fires1 (cf, []) g hwf,
      foldl_fireStepOne_mem w h ma ngh2 fires2 (cf, []) g hwf,
      hits_perm w h fires1 fires2 ngh1 ngh2 hp hn g.x g.y]
    constructor
    · rintro (hg | ⟨f, hf, hcar⟩ | hign)
      · exact Or.inl hg
      · exact Or.inr (Or.inl ⟨f, hp.mem_iff.mp hf, hcar⟩)
      · exact Or.inr (Or.inr hign)
    · rintro (hg | ⟨f, hf, hcar⟩ | hign)
      · exact Or.inl hg
      · exact Or.inr (Or.inl ⟨f, hp.mem_iff.mpr hf, hcar⟩)
      · exact Or.inr (Or.inr hign)

/-- Witness for `contagion_order_independent`: swapping both the two burning
cells and the first two neighbor offsets on a concrete 2 × 2 grid. -/
theorem contagion_order_independent_witness :
    (⟨1, 0, 0⟩ : Fire) ∈
      (propagate 2 2 1 [(-1, 0), (1, 0), (0, -1), (0, 1)]
        ((CellField.new 2 2).set 1 0) [⟨0, 0, 0⟩, ⟨1, 1, 9⟩]).2 ↔
    (⟨1, 0, 0⟩ : Fire) ∈
      (propagate 2 2 1 [(1, 0), (-1, 0), (0, -1), (0, 1)]
        ((CellField.new 2 2).set 1 0) [⟨1, 1, 9⟩, ⟨0, 0, 0⟩]).2 :=
  (contagion_order_independent 2 2 1 ((CellField.new 2 2).set 1 0) (by decide)
    [⟨0, 0, 0⟩, ⟨1, 1, 9⟩] [⟨1, 1, 9⟩, ⟨0, 0, 0⟩]
    [(-1, 0), (1, 0), (0, -1), (0, 1)] [(1, 0), (-1, 0), (0, -1), (0, 1)]
    (List.Perm.swap (⟨1, 1, 9⟩ : Fire) (⟨0, 0, 0⟩ : Fire) ([] : List Fire))
    (List.Perm.swap (((1 : Int), (0 : Int)) : Int × Int) ((-1, 0) : Int × Int)
      ([(0, -1), (0, 1)] : List (Int × Int)))).2 ⟨1, 0, 0⟩

set_option maxRecDepth 40000 in
/-- C1 counterexample: the claim asserts that after step 1 the grid occupancy
is cleared at all five burning coordinates, but the manually ignited (2, 2) is
still occupied (manual ignition pushes the fire without clearing the bit). -/
theorem single_ignition_counterexample :
    (c1Run 1).2 = [⟨2, 2, 1⟩, ⟨1, 2, 0⟩, ⟨3, 2, 0⟩, ⟨2, 1, 0⟩, ⟨2, 3, 0⟩] ∧
    ¬ (c1Run 1).1.get 2 2 = false := by decide

end ForestFire
